import Mathlib

set_option autoImplicit false

namespace PTVae

/-! Shallow embedding of `pytorchtextvae/datasets.py`: the string
normalizer, the length filter, the vocabulary builder `_setup_vocab`, the
defaultdict word tables, the worker function `process` with its sentinel
protocol, the producer loop of `_setup_pairs`, the `Lang` word/index encoder
and the audio-feature data split. Strings manipulated by the pipeline are
modelled as `List Char`; fallible Python operations return `Option`. -/

/-- Index of the start-of-sentence reserved token (`SOS_token` in the source). -/
def SOS_token : Nat := 0

/-- Index of the end-of-sentence reserved token (`EOS_token` in the source). -/
def EOS_token : Nat := 1

/-- Index of the unknown-word reserved token (`UNK_token` in the source). -/
def UNK_token : Nat := 2

/-- Fixed worker-pool size (`N_CORE` in the source). -/
def N_CORE : Nat := 24

/-- Model of the Python `unicodedata` / `str` / `re` character primitives that
`normalize_string` depends on: `str.lower` (charwise), NFD decomposition
(charwise), the Unicode `Mn` category test, the regex `\w` word-character test
and the `\s` whitespace test. These are external library functions for the
code under verification, so they are parameters of the embedding. -/
structure UnicodeEnv where
  toLower : Char → Char
  nfd : Char → List Char
  isMn : Char → Bool
  isWordChar : Char → Bool
  isSpace : Char → Bool

/-- Python `str.lstrip()` with no argument: drop leading whitespace. -/
def pyLstrip (u : UnicodeEnv) (s : List Char) : List Char :=
  s.dropWhile u.isSpace

/-- Python `str.rstrip()` with no argument: drop trailing whitespace. -/
def pyRstrip (u : UnicodeEnv) : List Char → List Char
  | [] => []
  | c :: cs =>
    match pyRstrip u cs with
    | [] => if u.isSpace c then [] else [c]
    | r => c :: r

/-- Python `str.strip()` with no argument: drop whitespace at both ends. -/
def pyStripBoth (u : UnicodeEnv) (s : List Char) : List Char :=
  pyRstrip u (pyLstrip u s)

/-- Python `str.split(" ")` with an explicit single-space separator: splits at
every occurrence of the separator keeping empty pieces, and the empty string
yields one empty piece. -/
def splitSp : List Char → List (List Char)
  | [] => [[]]
  | c :: cs =>
    if c = ' ' then [] :: splitSp cs
    else (c :: (splitSp cs).headI) :: (splitSp cs).tail

/-- Model of `re.sub(r"\s+", r" ", s)`: every maximal run of whitespace
characters becomes a single space. The boolean argument records whether the
previous character was inside a whitespace run. -/
def collapseWS (u : UnicodeEnv) : Bool → List Char → List Char
  | _, [] => []
  | prev, c :: cs =>
    if u.isSpace c then
      if prev then collapseWS u true cs else ' ' :: collapseWS u true cs
    else c :: collapseWS u false cs

/-- Embedding of `unicode_to_ascii`: NFD-decompose (modelled charwise; the
canonical-reordering step of full NFD only permutes combining marks, which the
subsequent filter removes anyway) and drop all characters of category Mn. -/
def unicode_to_ascii (u : UnicodeEnv) (s : List Char) : List Char :=
  (s.flatMap u.nfd).filter (fun c => !(u.isMn c))

/-- Embedding of `normalize_string`: lowercase and strip, fold to ASCII,
delete apostrophes, insert a space before sentence punctuation, replace every
non-word character by a space, collapse whitespace runs, and strip again
(the source calls `.strip().lstrip().rstrip()`). -/
def normalize_string (u : UnicodeEnv) (s : List Char) : List Char :=
  let s1 := unicode_to_ascii u (pyStripBoth u (s.map u.toLower))
  let s2 := s1.filter (fun c => c != '\x27')
  let s3 := s2.flatMap (fun c => if c = '.' ∨ c = '!' ∨ c = '?' then [' ', c] else [c])
  let s4 := s3.map (fun c => if u.isWordChar c then c else ' ')
  pyRstrip u (pyLstrip u (pyStripBoth u (collapseWS u false s4)))

/-- First-match lookup in an insertion-ordered association list; with unique
keys this is exactly Python dict lookup. -/
def pyLookup {α β : Type} [DecidableEq α] : List (α × β) → α → Option β
  | [], _ => none
  | p :: ps, k => if p.1 = k then some p.2 else pyLookup ps k

/-- Python dict assignment `d[k] = v` on an insertion-ordered association
list: an existing key keeps its position and gets the new value, a fresh key
is appended. -/
def pySet {α β : Type} [DecidableEq α] (l : List (α × β)) (k : α) (v : β) : List (α × β) :=
  if (pyLookup l k).isSome then l.map (fun q => if q.1 = k then (q.1, v) else q)
  else l ++ [(k, v)]

/-- Python dict comprehension: successive assignments starting from the empty
dict, so a repeated key keeps its first position and its last value. -/
def pyDict {α β : Type} [DecidableEq α] (ps : List (α × β)) : List (α × β) :=
  ps.foldl (fun d p => pySet d p.1 p.2) []

/-- Constant returned by `unk_func`, the default factory of the vocabulary
defaultdicts. -/
def unk_func : List Char := "UNK".data

/-- Model of a `collections.defaultdict(unk_func)` holding a vocabulary
table: an insertion-ordered association list. -/
structure DefaultDict where
  entries : List (List Char × List Char)
  deriving DecidableEq

/-- Python `d[k]` on a defaultdict: a hit returns the stored value and leaves
the dict unchanged; a miss inserts the default value `unk_func` under `k` and
returns it, so a defaultdict read can grow the table. -/
def DefaultDict.get (d : DefaultDict) (k : List Char) : List Char × DefaultDict :=
  match pyLookup d.entries k with
  | some v => (v, d)
  | none => (unk_func, ⟨d.entries ++ [(k, unk_func)]⟩)

/-- Value component of a defaultdict read. -/
def DefaultDict.getVal (d : DefaultDict) (k : List Char) : List Char :=
  (d.get k).1

/-- Python defaultdict assignment `d[k] = v`. -/
def DefaultDict.set (d : DefaultDict) (k v : List Char) : DefaultDict :=
  ⟨pySet d.entries k v⟩

/-- Python `" ".join(xs)` over a list of strings given as character lists. -/
def joinSp : List (List Char) → List Char
  | [] => []
  | [t] => t
  | t :: ts => t ++ ' ' :: joinSp ts

/-- State-threaded evaluation of the list comprehension `[D[w] for w in ws]`
over a defaultdict. -/
def ddMapM : DefaultDict → List (List Char) → List (List Char) × DefaultDict
  | d, [] => ([], d)
  | d, w :: ws =>
    let p := d.get w
    let q := ddMapM p.2 ws
    (p.1 :: q.1, q.2)

/-- Embedding of `process_input_side`: look every space-separated token up in
the `WORDS` table and rejoin with single spaces. The defaultdict is threaded
through because a missed lookup inserts its key. -/
def process_input_side (W : DefaultDict) (s : List Char) : List Char × DefaultDict :=
  let q := ddMapM W (splitSp s)
  (joinSp q.1, q.2)

/-- Embedding of `process_output_side`: the same as `process_input_side` but
reading the `REVERSE_WORDS` table. -/
def process_output_side (RW : DefaultDict) (s : List Char) : List Char × DefaultDict :=
  let q := ddMapM RW (splitSp s)
  (joinSp q.1, q.2)

/-- Embedding of `filter_pair`: both components must have a space-token count
strictly between `MIN_LENGTH` and `MAX_LENGTH`. -/
def filter_pair (mi ma : Nat) (p : List Char × List Char) : Bool :=
  decide (mi < (splitSp p.1).length ∧ (splitSp p.1).length < ma ∧
    mi < (splitSp p.2).length ∧ (splitSp p.2).length < ma)

/-- Embedding of `proc_line`: bail on blank lines, apply the raw length
filter to the stripped line, normalize, apply `filter_pair`, optionally
character-reverse the output side, and encode both sides through the
vocabulary tables. Returns the optional pair with the threaded defaultdicts. -/
def proc_line (u : UnicodeEnv) (mi ma : Nat) (W RW : DefaultDict)
    (line : List Char) (rev : Bool) :
    Option (List Char × List Char) × DefaultDict × DefaultDict :=
  if (pyStripBoth u line).length = 0 then (none, W, RW)
  else
    let l := pyRstrip u (pyLstrip u (pyStripBoth u line))
    if mi < (splitSp l).length ∧ (splitSp l).length < ma then
      let ln := normalize_string u l
      let l2 := ln
      let pair := (ln, l2)
      if filter_pair mi ma pair then
        let pair2 := if rev then (ln, l2.reverse) else pair
        let r0 := process_input_side W pair2.1
        let r1 := process_output_side RW pair2.2
        (some (r0.1, r1.1), r0.2, r1.2)
      else (none, W, RW)
    else (none, W, RW)

/-- Space-token count that `proc_line` and `_setup_vocab` test against the
length bounds: the length of `l.split(" ")` where `l` is the line after
`.strip().lstrip().rstrip()`. -/
def tokenCountRaw (u : UnicodeEnv) (line : List Char) : Nat :=
  (splitSp (pyRstrip u (pyLstrip u (pyStripBoth u line)))).length

/-- A queue element as produced by the record provider: either a plain line
or a line paired with an encoded conditioning vector. -/
inductive Elem where
  | plain (line : List Char)
  | withCond (line : List Char) (cond : List Int)
  deriving DecidableEq

/-- A processed result as reassembled by the worker: `(p0, p1)`, or
`(p0, p1, cond)` when a conditioning vector travelled with the line. -/
inductive OutItem where
  | pair (p0 p1 : List Char)
  | triple (p0 p1 : List Char) (cond : List Int)
  deriving DecidableEq

/-- Batch body of the worker function `process`: run `proc_line` (with
`reverse=True`, as hardcoded there) over every element, drop rejected lines,
and re-attach conditioning vectors to surviving pairs. The vocabulary
defaultdicts are threaded through the lookups. -/
def processBatch (u : UnicodeEnv) (mi ma : Nat) :
    DefaultDict → DefaultDict → List Elem → List OutItem × DefaultDict × DefaultDict
  | W, RW, [] => ([], W, RW)
  | W, RW, e :: es =>
    let step :=
      match e with
      | Elem.plain line =>
        let r := proc_line u mi ma W RW line true
        (r.1.map (fun p : List Char × List Char => OutItem.pair p.1 p.2), r.2)
      | Elem.withCond line cond =>
        let r := proc_line u mi ma W RW line true
        (r.1.map (fun p : List Char × List Char => OutItem.triple p.1 p.2 cond), r.2)
    let rest := processBatch u mi ma step.2.1 step.2.2 es
    (step.1.toList ++ rest.1, rest.2)

/-- Embedding of the worker loop `process`: pop items from this worker's view
of the inbound queue; a `None` sentinel breaks the loop immediately; a batch
is processed and its survivor list is pushed to the outbound queue only when
non-empty. Returns the pushed batches together with the queue items the
worker never consumed. -/
def process (u : UnicodeEnv) (mi ma : Nat) :
    DefaultDict → DefaultDict → List (Option (List Elem)) →
      List (List OutItem) × List (Option (List Elem))
  | _, _, [] => ([], [])
  | _, _, none :: rest => ([], rest)
  | W, RW, some b :: rest =>
    let r := processBatch u mi ma W RW b
    let q := process u mi ma r.2.1 r.2.2 rest
    (if r.1.length > 0 then r.1 :: q.1 else q.1, q.2)

/-- Batching loop of `_setup_pairs`: accumulate elements into the current
block, pushing it once its size exceeds `block_size`; after the provider is
exhausted the residual block is always pushed (even when empty). -/
def makeBlocks (block_size : Nat) (elems : List Elem) : List (List Elem) :=
  let f := elems.foldl
    (fun (acc : List (List Elem) × List Elem) e =>
      let cb := acc.2 ++ [e]
      if cb.length > block_size then (acc.1 ++ [cb], []) else (acc.1, cb))
    ([], [])
  f.1 ++ [f.2]

/-- Complete inbound-queue content produced by `_setup_pairs`: the data
blocks followed by one `None` shutdown sentinel per worker. -/
def producerQueue (block_size : Nat) (elems : List Elem) : List (Option (List Elem)) :=
  (makeBlocks block_size elems).map some ++ List.replicate N_CORE none

/-- Counter increment used by `wc.update(...)`: a known word's count rises in
place, a new word is appended with count 1. -/
def wcIncr (wc : List (List Char × Nat)) (w : List Char) : List (List Char × Nat) :=
  if (pyLookup wc w).isSome then wc.map (fun p => if p.1 = w then (p.1, p.2 + 1) else p)
  else wc ++ [(w, 1)]

/-- `collections.Counter.update` over a token list. -/
def wcUpdate (wc : List (List Char × Nat)) (ws : List (List Char)) : List (List Char × Nat) :=
  ws.foldl wcIncr wc

/-- Loop body of the counting pass of `_setup_vocab`: strip the line, apply
the same length bounds as `proc_line`, normalize, split, and update the
counter with the tokens; a non-qualifying line leaves the counter unchanged. -/
def word_counter_step (u : UnicodeEnv) (mi ma : Nat) (wc : List (List Char × Nat))
    (line : List Char) : List (List Char × Nat) :=
  let l := pyRstrip u (pyLstrip u (pyStripBoth u line))
  if mi < (splitSp l).length ∧ (splitSp l).length < ma then
    wcUpdate wc (splitSp (normalize_string u l))
  else wc

/-- Counting pass of `_setup_vocab` over the whole corpus. -/
def word_counter (u : UnicodeEnv) (mi ma : Nat) (lines : List (List Char)) :
    List (List Char × Nat) :=
  lines.foldl (word_counter_step u mi ma) []

/-- Number of distinct words seen in qualifying lines: the counter's support. -/
def distinct_qualifying_words (u : UnicodeEnv) (mi ma : Nat)
    (lines : List (List Char)) : Nat :=
  (word_counter u mi ma lines).length

/-- Insertion step of the stable descending sort behind `most_common`. -/
def insertMC (p : List Char × Nat) : List (List Char × Nat) → List (List Char × Nat)
  | [] => [p]
  | q :: qs => if p.2 < q.2 then q :: insertMC p qs else p :: q :: qs

/-- `Counter.most_common()`: entries sorted by count descending; Python's
sort is stable, so equal counts keep first-insertion order. -/
def most_common (wc : List (List Char × Nat)) : List (List Char × Nat) :=
  wc.foldr insertMC []

/-- Python list slicing `xs[:i]`, including the negative-stop convention
`xs[:-k] = xs[:len(xs)-k]`. -/
def pySliceTo {α : Type} (i : Int) (xs : List α) : List α :=
  if i < 0 then xs.take (xs.length - (-i).toNat) else xs.take i.toNat

/-- Forward word list built by `_setup_vocab`: the three reserved tokens
followed by the `vocabulary_size - 3` most common words. -/
def the_words (u : UnicodeEnv) (mi ma : Nat) (vocabulary_size : Int)
    (lines : List (List Char)) : List (List Char) :=
  ["SOS".data, "EOS".data, "UNK".data] ++
    (pySliceTo (vocabulary_size - 3) (most_common (word_counter u mi ma lines))).map Prod.fst

/-- Reversed word list built by `_setup_vocab`: every forward entry
character-reversed, reserved tokens included. -/
def the_reverse_words (u : UnicodeEnv) (mi ma : Nat) (vocabulary_size : Int)
    (lines : List (List Char)) : List (List Char) :=
  (["SOS".data, "EOS".data, "UNK".data].map List.reverse) ++
    (pySliceTo (vocabulary_size - 3) (most_common (word_counter u mi ma lines))).map
      (fun p => p.1.reverse)

/-- Final population loop of `_setup_vocab`: assign `D[w] = w` for every word
of the given list into a fresh defaultdict. Used for both `WORDS` (with
`the_words`) and `REVERSE_WORDS` (with `the_reverse_words`). -/
def setup_dd (ws : List (List Char)) : DefaultDict :=
  ws.foldl (fun d w => d.set w w) ⟨[]⟩

/-- Python `str.lower()` restricted to the ASCII range, as used by
`Lang.word_to_index` on its query. -/
def pyLower (s : String) : String :=
  ⟨s.data.map Char.toLower⟩

/-- Python string slice `s[::-1]`: character reversal. -/
def strRev (s : String) : String :=
  String.mk s.data.reverse

/-- Embedding of the `Lang` encoder state after `__init__`: the (truncated)
vocabulary, the two dict-comprehension tables, the key list `words` and the
size `n_words`. -/
structure Lang where
  vocabulary : List String
  word2index : List (String × Nat)
  index2word : List (Nat × String)
  words : List String
  n_words : Nat

/-- Embedding of `Lang.__init__`: prepend the reserved tokens to the external
word list (character-reversing everything in reverse mode), default a negative
size cap to the full length, truncate, and build `word2index` /`index2word`
by dict comprehension. -/
def Lang.make (norvig : List String) (vocabulary_size : Int) (rev : Bool) : Lang :=
  let vocab0 := if rev then (["SOS", "EOS", "UNK"].map strRev) ++ (norvig.map strRev)
    else ["SOS", "EOS", "UNK"] ++ norvig
  let vsize : Int := if vocabulary_size < 0 then (vocab0.length : Int) else vocabulary_size
  let vocab := pySliceTo vsize vocab0
  let w2i := pyDict (vocab.enum.map (fun p => (p.2, p.1)))
  let i2w := pyDict (w2i.map (fun p => (p.2, p.1)))
  { vocabulary := vocab
    word2index := w2i
    index2word := i2w
    words := w2i.map Prod.fst
    n_words := vocab.length }

/-- A Python value passed to `index_to_word` as the index: a zero-dimensional
tensor supports `.item()` and yields its integer, while a plain `int` — such
as the values stored in `word2index` and returned by `word_to_index` — has no
`.item()` attribute, so the attribute access raises an `AttributeError`. -/
inductive PyIndex where
  | int (n : Nat)
  | tensor (n : Nat)
deriving DecidableEq

/-- Python `index.item()`: the integer of a tensor scalar; an
`AttributeError`, modelled as `none`, on a plain integer. -/
def pyItem : PyIndex → Option Nat
  | PyIndex.int _ => none
  | PyIndex.tensor n => some n

/-- Embedding of `Lang.index_to_word`: the source evaluates `index.item()`
first, and its `AttributeError` on a plain-integer index propagates, because
the surrounding `except KeyError` does not catch it. On a tensor index, a hit
in `index2word` is returned; a `KeyError` falls back to
`index2word[word2index[vocabulary[UNK_token]]]`, whose own failures (list
index out of range, key miss) propagate as `none`. -/
def Lang.index_to_word (L : Lang) (index : PyIndex) : Option String :=
  match pyItem index with
  | none => none
  | some i =>
    match pyLookup L.index2word i with
    | some w => some w
    | none =>
      (L.vocabulary[UNK_token]?).bind fun uk =>
        (pyLookup L.word2index uk).bind fun i2 => pyLookup L.index2word i2

/-- Embedding of `Lang.word_to_index`: the query is lowercased; a hit in
`word2index` is returned; a `KeyError` falls back to
`word2index[vocabulary[UNK_token]]`. -/
def Lang.word_to_index (L : Lang) (word : String) : Option Nat :=
  match pyLookup L.word2index (pyLower word) with
  | some i => some i
  | none =>
    (L.vocabulary[UNK_token]?).bind fun uk => pyLookup L.word2index uk

/-- Python `" ".join(xs)` over a mixed list of strings and integers: joining
succeeds only when every element is a string; an integer raises a TypeError,
modelled as `none`. -/
def pyJoinMixed (xs : List (String ⊕ Nat)) : Option String :=
  if xs.all (fun x => x.isLeft) then
    some (" ".intercalate (xs.filterMap (fun x => x.getLeft?)))
  else none

/-- Embedding of `Lang.process_sentence`: normalize (by default), then map
each space token to itself when it is in `self.words` and otherwise to
`self.word2index[self.vocabulary[UNK_token]]` — which is an integer index,
not a token — and join the result with `" ".join`. -/
def Lang.process_sentence (L : Lang) (u : UnicodeEnv) (sentence : String)
    (normalize : Bool) : Option String :=
  let s := if normalize then String.mk (normalize_string u sentence.data) else sentence
  (((splitSp s.data).map (fun t => String.mk t)).mapM (fun w =>
      if w ∈ L.words then some (Sum.inl w)
      else ((L.vocabulary[UNK_token]?).bind fun uk =>
        pyLookup L.word2index uk).map Sum.inr)).bind
    pyJoinMixed

/-- A row of the audio-feature JSON frame: the raw `audio_features` string
and the record's sentences. -/
structure AFRow where
  audio_features : List Char
  content_sentences : List String
  deriving DecidableEq

/-- State of an `AFDataSplit` relevant to `read_json_gen`: the fixed
ignore-key list and the expected conditioning-vector length `n_conditions`. -/
structure AFSplitModel where
  ignore_keys : List String
  n_conditions : Nat
  deriving DecidableEq

/-- Python `s.replace("'", "\"")` as applied to the raw feature string. -/
def pyReplacePrime (s : List Char) : List Char :=
  s.map (fun c => if c = '\x27' then '"' else c)

/-- Insertion step of the stable ascending key sort behind `sorted(d.items())`. -/
def insertByKey (p : String × Int) : List (String × Int) → List (String × Int)
  | [] => [p]
  | q :: qs => if q.1 < p.1 then q :: insertByKey p qs else p :: q :: qs

/-- Python `sorted(d.items())`: ascending stable sort by key. -/
def sortByKey (l : List (String × Int)) : List (String × Int) :=
  l.foldr insertByKey []

/-- Embedding of `AFDataSplit.encode_conditions`: sort the feature map by
key, drop the ignore-listed keys, and keep the values in sorted-key order. -/
def encode_conditions (m : AFSplitModel) (conditions : List (String × Int)) : List Int :=
  ((sortByKey conditions).filter (fun p => decide (p.1 ∉ m.ignore_keys))).map Prod.snd

/-- Embedding of `AFDataSplit.read_json_gen` (lines 124-132 as written): for
every row, parse the quote-fixed feature string; on a parse failure
substitute `np.zeros(n_conditions)`; then yield every sentence of the row
paired with the conditioning vector. The JSON parser is an external
collaborator and is passed as a function, with `none` standing for
`json.decoder.JSONDecodeError`. -/
def read_json_gen (m : AFSplitModel) (jsonLoads : List Char → Option (List (String × Int)))
    (rows : List AFRow) : List (String × List Int) :=
  rows.flatMap (fun row =>
    let fs :=
      match jsonLoads (pyReplacePrime row.audio_features) with
      | some conds => encode_conditions m conds
      | none => List.replicate m.n_conditions 0
    row.content_sentences.map (fun sent => (sent, fs)))

/-- Concrete instance of the character primitives, used by witnesses: an
ASCII-like environment where lowering is the identity, decomposition is
trivial, no character is a combining mark, whitespace is space, tab or
newline, and every other character except the punctuation handled by
`normalize_string` is a word character. -/
def simpleU : UnicodeEnv where
  toLower := fun c => c
  nfd := fun c => [c]
  isMn := fun _ => false
  isWordChar := fun c =>
    !(c == ' ' || c == '\t' || c == '\n' || c == '.' || c == '!' || c == '?' || c == '\x27')
  isSpace := fun c => c == ' ' || c == '\t' || c == '\n'

/-- Empty vocabulary table, for witnesses. -/
def emptyDD : DefaultDict := ⟨[]⟩

/-- Characters that can appear in the output of `normalize_string`: the
separator space, or a word character left fixed by lowering/decomposition. -/
def OutChar (u : UnicodeEnv) (c : Char) : Prop :=
  c = ' ' ∨ (u.isWordChar c = true ∧ u.toLower c = c ∧ u.nfd c = [c] ∧ u.isMn c = false)

/-- Adjacent whitespace characters never occur. -/
def noAdjSpace (u : UnicodeEnv) : List Char → Prop
  | [] => True
  | [_] => True
  | a :: b :: rest => ¬(u.isSpace a = true ∧ u.isSpace b = true) ∧ noAdjSpace u (b :: rest)

/-- Consistency conditions on the character primitives under which
`normalize_string` is idempotent. -/
structure UGood (u : UnicodeEnv) : Prop where
  space_isSpace : u.isSpace ' ' = true
  space_lower : u.toLower ' ' = ' '
  space_nfd : u.nfd ' ' = [' ']
  space_isMn : u.isMn ' ' = false
  word_not_space : ∀ c, u.isWordChar c = true → u.isSpace c = false
  word_not_punct : ∀ c, u.isWordChar c = true →
    c ≠ '\x27' ∧ c ≠ '.' ∧ c ≠ '!' ∧ c ≠ '?'
  lower_nfd_fix : ∀ d c, c ∈ u.nfd (u.toLower d) → u.toLower c = c ∧ u.nfd c = [c]

example : normalize_string simpleU "  hello the World!  ".data = "hello the World".data := by
  decide

example : splitSp "a  b".data = ["a".data, "".data, "b".data] := by decide

/-- Either `proc_line` emits nothing, or the raw space-token count of the
stripped line was strictly between the bounds. -/
theorem proc_line_none_or_bounds (u : UnicodeEnv) (mi ma : Nat) (W RW : DefaultDict)
    (line : List Char) (rev : Bool) :
    (proc_line u mi ma W RW line rev).1 = none ∨
      (mi < tokenCountRaw u line ∧ tokenCountRaw u line < ma) := by
  simp only [proc_line, tokenCountRaw]
  split_ifs with h0 h1 h2 <;> first | exact Or.inl rfl | exact Or.inr h1

/-- C2: a raw line whose space-token count (after stripping) is at most
`MIN_LENGTH` or at least `MAX_LENGTH` makes `proc_line` return `None`, so no
pair is ever emitted from it; conversely a line only produces a pair when
that count is strictly between the two bounds. -/
theorem c2_length_filter (u : UnicodeEnv) (mi ma : Nat) (W RW : DefaultDict)
    (line : List Char) (rev : Bool) :
    ((tokenCountRaw u line ≤ mi ∨ ma ≤ tokenCountRaw u line) →
      (proc_line u mi ma W RW line rev).1 = none) ∧
    (∀ p, (proc_line u mi ma W RW line rev).1 = some p →
      mi < tokenCountRaw u line ∧ tokenCountRaw u line < ma) := by
  rcases proc_line_none_or_bounds u mi ma W RW line rev with h | h
  · refine ⟨fun _ => h, fun p hp => ?_⟩
    rw [h] at hp
    cases hp
  · refine ⟨fun hb => ?_, fun p _ => h⟩
    omega

/-- Witness for C2 at a concrete input: the one-token line `"a"` with
`MIN_LENGTH = 1` is rejected. -/
theorem c2_length_filter_witness :
    (proc_line simpleU 1 10 emptyDD emptyDD "a".data false).1 = none :=
  (c2_length_filter simpleU 1 10 emptyDD emptyDD "a".data false).1 (by decide)

/-- A worker that first pops data batches and then a sentinel stops exactly
at that sentinel, leaving all later queue items unconsumed. -/
theorem process_stops_at_sentinel (u : UnicodeEnv) (mi ma : Nat) :
    ∀ (bs : List (List Elem)) (W RW : DefaultDict) (rest : List (Option (List Elem))),
      (process u mi ma W RW (bs.map some ++ none :: rest)).2 = rest := by
  intro bs
  induction bs with
  | nil => intro W RW rest; rfl
  | cons b bs ih =>
    intro W RW rest
    simp only [List.map_cons, List.cons_append, process]
    exact ih _ _ _

/-- C1: after the record provider is exhausted, `_setup_pairs` pushes exactly
one `None` sentinel per worker (`N_CORE` sentinels for the `N_CORE`-strong
pool) onto the inbound queue; a worker that pops a sentinel exits its loop at
once, produces no output from it and consumes nothing after it; and over any
pop sequence of data batches followed by a first sentinel the worker exits
exactly once — at that sentinel — leaving the remaining items (the other
workers' sentinels) unread. -/
theorem c1_shutdown_protocol (u : UnicodeEnv) (mi ma block_size : Nat) (elems : List Elem) :
    ((producerQueue block_size elems).filter (fun x => x.isNone)).length = N_CORE ∧
    (∀ (W RW : DefaultDict) (rest : List (Option (List Elem))),
      process u mi ma W RW (none :: rest) = ([], rest)) ∧
    (∀ (bs : List (List Elem)) (W RW : DefaultDict) (rest : List (Option (List Elem))),
      (process u mi ma W RW (bs.map some ++ none :: rest)).2 = rest) := by
  refine ⟨?_, fun W RW rest => rfl,
    fun bs W RW rest => process_stops_at_sentinel u mi ma bs W RW rest⟩
  simp [producerQueue, List.filter_append, List.filter_map, Function.comp]

/-- First-match lookup distributes over list append. -/
theorem pyLookup_append {α β : Type} [DecidableEq α] (l1 l2 : List (α × β)) (k : α) :
    pyLookup (l1 ++ l2) k =
      match pyLookup l1 k with
      | some v => some v
      | none => pyLookup l2 k := by
  induction l1 with
  | nil => rfl
  | cons p ps ih =>
    simp only [List.cons_append, pyLookup]
    split_ifs with h
    · rfl
    · exact ih

/-- Defaultdict reads compute the same value before and after any other read:
a hit leaves the dict unchanged, and a miss inserts exactly the default that
a later miss would have returned anyway. -/
theorem ddGet_preserves_getVal (d : DefaultDict) (k k' : List Char) :
    ((d.get k).2).getVal k' = d.getVal k' := by
  unfold DefaultDict.getVal DefaultDict.get
  cases h : pyLookup d.entries k with
  | some v => simp [h]
  | none =>
    simp only [h]
    rw [pyLookup_append]
    by_cases hk : k' = k
    · subst hk
      simp [h, pyLookup]
    · have hk2 : ¬(k = k') := fun hke => hk hke.symm
      cases h' : pyLookup d.entries k' <;> simp [h', pyLookup, hk2]

/-- Threading a token list through defaultdict reads preserves every lookup
value. -/
theorem ddMapM_preserves_getVal :
    ∀ (ws : List (List Char)) (d : DefaultDict) (k : List Char),
      ((ddMapM d ws).2).getVal k = d.getVal k := by
  intro ws
  induction ws with
  | nil => intro d k; rfl
  | cons w ws ih =>
    intro d k
    simp only [ddMapM]
    rw [ih]
    exact ddGet_preserves_getVal d w k

/-- Either `proc_line` leaves both tables untouched, or it hands each to one
encoding pass over some string. -/
theorem proc_line_snd_cases (u : UnicodeEnv) (mi ma : Nat) (W RW : DefaultDict)
    (line : List Char) (rev : Bool) :
    (proc_line u mi ma W RW line rev).2 = (W, RW) ∨
    ∃ x y, (proc_line u mi ma W RW line rev).2 =
      ((process_input_side W x).2, (process_output_side RW y).2) := by
  simp only [proc_line]
  split_ifs
  · exact Or.inl rfl
  · exact Or.inr ⟨_, _, rfl⟩
  · exact Or.inr ⟨_, _, rfl⟩
  · exact Or.inl rfl
  · exact Or.inl rfl

/-- `proc_line` preserves every lookup value of both vocabulary tables. -/
theorem proc_line_preserves_getVal (u : UnicodeEnv) (mi ma : Nat) (W RW : DefaultDict)
    (line : List Char) (rev : Bool) (k : List Char) :
    ((proc_line u mi ma W RW line rev).2.1).getVal k = W.getVal k ∧
    ((proc_line u mi ma W RW line rev).2.2).getVal k = RW.getVal k := by
  rcases proc_line_snd_cases u mi ma W RW line rev with h | ⟨x, y, h⟩
  · rw [h]
    exact ⟨rfl, rfl⟩
  · rw [h]
    exact ⟨ddMapM_preserves_getVal (splitSp x) W k, ddMapM_preserves_getVal (splitSp y) RW k⟩

/-- C7 (amended): a worker batch never changes the mapping that either
vocabulary table computes — every lookup returns the same value before and
after processing.  (As stated, the claim that the tables themselves are left
unchanged fails, because a defaultdict read on a missed key inserts that key
with the default value `UNK`; see the counterexample.) -/
theorem c7_worker_table_readonly (u : UnicodeEnv) (mi ma : Nat) (W RW : DefaultDict)
    (batch : List Elem) (k : List Char) :
    ((processBatch u mi ma W RW batch).2.1).getVal k = W.getVal k ∧
    ((processBatch u mi ma W RW batch).2.2).getVal k = RW.getVal k := by
  induction batch generalizing W RW with
  | nil => exact ⟨rfl, rfl⟩
  | cons e es ih =>
    cases e with
    | plain line =>
      simp only [processBatch]
      have h := proc_line_preserves_getVal u mi ma W RW line true k
      have h' := ih (proc_line u mi ma W RW line true).2.1 (proc_line u mi ma W RW line true).2.2
      exact ⟨h'.1.trans h.1, h'.2.trans h.2⟩
    | withCond line cond =>
      simp only [processBatch]
      have h := proc_line_preserves_getVal u mi ma W RW line true k
      have h' := ih (proc_line u mi ma W RW line true).2.1 (proc_line u mi ma W RW line true).2.2
      exact ⟨h'.1.trans h.1, h'.2.trans h.2⟩

/-- C7 counterexample to the claim as stated: looking up the out-of-vocabulary
token `hello` through `process_input_side` mutates the `WORDS` defaultdict —
the missed key is inserted with the default value — so the table is not left
unchanged. -/
theorem c7_counterexample :
    (process_input_side (setup_dd ["SOS".data, "EOS".data, "UNK".data]) "hello".data).2 ≠
      setup_dd ["SOS".data, "EOS".data, "UNK".data] := by decide

/-- C9: when a row's audio-feature map fails to parse, the generator
substitutes the zero vector of length `n_conditions` and still yields all of
the row's sentences (each paired with that zero vector) instead of failing. -/
theorem c9_af_zero_vector (m : AFSplitModel)
    (jl : List Char → Option (List (String × Int)))
    (rows : List AFRow) (row : AFRow) (hrow : row ∈ rows)
    (hparse : jl (pyReplacePrime row.audio_features) = none) :
    (∀ sent ∈ row.content_sentences,
      (sent, List.replicate m.n_conditions (0 : Int)) ∈ read_json_gen m jl rows) ∧
    (List.replicate m.n_conditions (0 : Int)).length = m.n_conditions := by
  refine ⟨fun sent hsent => ?_, by simp⟩
  unfold read_json_gen
  refine List.mem_flatMap.mpr ⟨row, hrow, ?_⟩
  simp only [hparse]
  exact List.mem_map.mpr ⟨sent, hsent, rfl⟩

/-- Witness for C9 at a concrete input: a one-row frame whose feature string
is unparseable yields its sentence paired with the zero vector of length 3. -/
theorem c9_af_zero_vector_witness :
    ("la la", [(0 : Int), 0, 0]) ∈
      read_json_gen ⟨["id"], 3⟩ (fun _ => none) [⟨"bad".data, ["la la"]⟩] := by
  have h := c9_af_zero_vector ⟨["id"], 3⟩ (fun _ => none) [⟨"bad".data, ["la la"]⟩]
    ⟨"bad".data, ["la la"]⟩ (by simp) rfl
  simpa using h.1 "la la" (by simp)

/-- Splitting never produces the empty list of pieces. -/
theorem splitSp_ne_nil (s : List Char) : splitSp s ≠ [] := by
  induction s with
  | nil => simp [splitSp]
  | cons c cs ih => simp only [splitSp]; split_ifs <;> simp

/-- Joining with two or more pieces unfolds one step. -/
theorem joinSp_cons₂ (t t2 : List Char) (ts : List (List Char)) :
    joinSp (t :: t2 :: ts) = t ++ ' ' :: joinSp (t2 :: ts) := rfl

/-- Joining the pieces of a split recovers the original string. -/
theorem joinSp_splitSp (s : List Char) : joinSp (splitSp s) = s := by
  induction s with
  | nil => rfl
  | cons c cs ih =>
    cases h : splitSp cs with
    | nil => exact absurd h (splitSp_ne_nil cs)
    | cons t ts =>
      rw [h] at ih
      by_cases hc : c = ' '
      · have hs : splitSp (c :: cs) = [] :: t :: ts := by
          simp only [splitSp, if_pos hc, h]
        rw [hs, joinSp_cons₂, List.nil_append, ih, hc]
      · have hs : splitSp (c :: cs) = (c :: t) :: ts := by
          simp only [splitSp, if_neg hc, h, List.headI_cons, List.tail_cons]
        rw [hs]
        cases ts with
        | nil =>
          have ht : t = cs := ih
          rw [show joinSp [c :: t] = c :: t from rfl, ht]
        | cons t2 ts2 =>
          rw [joinSp_cons₂] at ih
          rw [joinSp_cons₂, List.cons_append, ih]

/-- No piece of a split contains the separator. -/
theorem splitSp_no_space (s : List Char) : ∀ t ∈ splitSp s, ' ' ∉ t := by
  induction s with
  | nil => intro t ht; simp [splitSp] at ht; simp [ht]
  | cons c cs ih =>
    intro t ht
    cases h : splitSp cs with
    | nil => exact absurd h (splitSp_ne_nil cs)
    | cons t' ts' =>
      simp only [splitSp, h, List.headI_cons, List.tail_cons] at ht
      by_cases hc : c = ' '
      · rw [if_pos hc] at ht
        rcases List.mem_cons.mp ht with rfl | ht2
        · simp
        · exact ih t (h ▸ ht2)
      · rw [if_neg hc] at ht
        rcases List.mem_cons.mp ht with rfl | ht2
        · intro hsp
          rcases List.mem_cons.mp hsp with hce | hsp2
          · exact hc hce.symm
          · exact ih t' (h ▸ List.mem_cons_self t' ts') hsp2
        · exact ih t (h ▸ List.mem_cons.mpr (Or.inr ht2))

/-- A separator-free string splits into itself alone. -/
theorem splitSp_self (t : List Char) (h : ' ' ∉ t) : splitSp t = [t] := by
  induction t with
  | nil => rfl
  | cons c t' ih =>
    have hc : c ≠ ' ' := fun hce => h (hce ▸ List.mem_cons_self c t')
    have ih' := ih (fun hm => h (List.mem_cons.mpr (Or.inr hm)))
    simp only [splitSp, if_neg hc, ih', List.headI_cons, List.tail_cons]

/-- Splitting a string of the form `piece ++ separator ++ rest`. -/
theorem splitSp_append_space (t rest : List Char) (h : ' ' ∉ t) :
    splitSp (t ++ ' ' :: rest) = t :: splitSp rest := by
  induction t with
  | nil => simp [splitSp]
  | cons c t' ih =>
    have hc : c ≠ ' ' := fun hce => h (hce ▸ List.mem_cons_self c t')
    have ih' := ih (fun hm => h (List.mem_cons.mpr (Or.inr hm)))
    simp only [List.cons_append, splitSp, List.append_eq, ih', if_neg hc, List.headI_cons,
      List.tail_cons]

/-- Splitting the join of separator-free pieces recovers the pieces. -/
theorem splitSp_joinSp (ts : List (List Char)) (h0 : ts ≠ [])
    (h : ∀ t ∈ ts, ' ' ∉ t) : splitSp (joinSp ts) = ts := by
  induction ts with
  | nil => exact absurd rfl h0
  | cons t ts ih =>
    cases ts with
    | nil => exact splitSp_self t (h t (List.mem_cons_self t []))
    | cons t2 ts2 =>
      rw [joinSp_cons₂, splitSp_append_space t _ (h t (List.mem_cons_self t _)),
        ih (by simp) (fun x hx => h x (List.mem_cons.mpr (Or.inr hx)))]

/-- Appending one more piece to a non-empty join. -/
theorem joinSp_append_single (xs : List (List Char)) (y : List Char) (h : xs ≠ []) :
    joinSp (xs ++ [y]) = joinSp xs ++ ' ' :: y := by
  induction xs with
  | nil => exact absurd rfl h
  | cons x xs ih =>
    cases xs with
    | nil => rfl
    | cons x2 xs2 =>
      have ih' : joinSp (x2 :: (xs2 ++ [y])) = joinSp (x2 :: xs2) ++ ' ' :: y :=
        ih (by simp)
      rw [show (x :: x2 :: xs2) ++ [y] = x :: x2 :: (xs2 ++ [y]) from rfl,
        joinSp_cons₂, ih', joinSp_cons₂, List.append_assoc]
      rfl

/-- Character-reversing a join reverses the piece order and every piece. -/
theorem reverse_joinSp (ts : List (List Char)) :
    (joinSp ts).reverse = joinSp (ts.reverse.map List.reverse) := by
  induction ts with
  | nil => rfl
  | cons t ts ih =>
    cases ts with
    | nil => rfl
    | cons t2 ts2 =>
      have hne : ((t2 :: ts2).reverse.map List.reverse) ≠ [] := by
        intro hh
        have hlen := congrArg List.length hh
        simp at hlen
      have hRHS : joinSp ((t :: t2 :: ts2).reverse.map List.reverse) =
          joinSp ((t2 :: ts2).reverse.map List.reverse) ++ ' ' :: t.reverse := by
        rw [List.reverse_cons, List.map_append, List.map_cons, List.map_nil,
          joinSp_append_single _ _ hne]
      rw [hRHS, joinSp_cons₂, List.reverse_append, List.reverse_cons, ih, List.append_assoc]
      rfl

/-- Overwriting a key in place: reading that key maps its old presence to
the new value. -/
theorem pyLookup_map_hit {α β : Type} [DecidableEq α] (l : List (α × β)) (k : α) (v : β) :
    pyLookup (l.map (fun q => if q.1 = k then (q.1, v) else q)) k =
      (pyLookup l k).map (fun _ => v) := by
  induction l with
  | nil => rfl
  | cons q qs ih =>
    by_cases hq : q.1 = k
    · simp [pyLookup, hq]
    · simp [pyLookup, hq, ih]

/-- Overwriting a key in place leaves every other key's read unchanged. -/
theorem pyLookup_map_other {α β : Type} [DecidableEq α] (l : List (α × β)) (k : α) (v : β)
    (k' : α) (hk : k' ≠ k) :
    pyLookup (l.map (fun q => if q.1 = k then (q.1, v) else q)) k' = pyLookup l k' := by
  induction l with
  | nil => rfl
  | cons q qs ih =>
    by_cases hq : q.1 = k
    · have hq' : q.1 ≠ k' := by rw [hq]; exact fun hh => hk hh.symm
      have hk2 : k ≠ k' := fun hh => hk hh.symm
      simp [pyLookup, hq, hq', hk2, ih]
    · simp [pyLookup, hq, ih]

/-- Lookup after a Python dict assignment: the assigned key reads the new
value, every other key is unaffected. -/
theorem pyLookup_pySet {α β : Type} [DecidableEq α] (l : List (α × β)) (k : α) (v : β)
    (k' : α) :
    pyLookup (pySet l k v) k' = if k' = k then some v else pyLookup l k' := by
  unfold pySet
  by_cases hs : (pyLookup l k).isSome
  · rw [if_pos hs]
    by_cases hk : k' = k
    · subst hk
      rw [pyLookup_map_hit, if_pos rfl]
      obtain ⟨w, hw⟩ := Option.isSome_iff_exists.mp hs
      rw [hw]
      rfl
    · rw [pyLookup_map_other l k v k' hk, if_neg hk]
  · rw [if_neg hs, pyLookup_append]
    by_cases hk : k' = k
    · subst hk
      have hnone : pyLookup l k' = none := by
        cases hh : pyLookup l k' with
        | none => rfl
        | some w => rw [hh] at hs; simp at hs
      rw [hnone, if_pos rfl]
      simp [pyLookup]
    · rw [if_neg hk]
      have hk2 : ¬(k = k') := fun hh => hk hh.symm
      cases hh : pyLookup l k' <;> simp [hh, pyLookup, hk2]

/-- Lookup in the table built by the population loop of `_setup_vocab`:
every listed word maps to itself, everything else is absent. -/
theorem foldl_set_lookup (ws : List (List Char)) (d : DefaultDict) (k : List Char) :
    pyLookup ((ws.foldl (fun d w => d.set w w) d).entries) k =
      if k ∈ ws then some k else pyLookup d.entries k := by
  induction ws generalizing d with
  | nil => simp
  | cons w ws ih =>
    rw [List.foldl_cons, ih]
    by_cases hk : k ∈ ws
    · simp [hk]
    · by_cases hw : k = w
      · subst hw
        simp [hk, DefaultDict.set, pyLookup_pySet]
      · simp [hk, hw, DefaultDict.set, pyLookup_pySet]

/-- Lookup in `setup_dd`. -/
theorem setup_dd_lookup (ws : List (List Char)) (k : List Char) :
    pyLookup (setup_dd ws).entries k = if k ∈ ws then some k else none := by
  unfold setup_dd
  rw [foldl_set_lookup]
  rfl

/-- When every token is a key of the table, the threaded lookups return the
tokens unchanged and the defaultdict is not modified. -/
theorem ddMapM_all_hits (d : DefaultDict) (ts : List (List Char))
    (h : ∀ t ∈ ts, pyLookup d.entries t = some t) :
    ddMapM d ts = (ts, d) := by
  induction ts with
  | nil => rfl
  | cons t ts ih =>
    have ht := h t (List.mem_cons_self t ts)
    simp only [ddMapM, DefaultDict.get, ht]
    rw [ih (fun t' ht' => h t' (List.mem_cons.mpr (Or.inr ht')))]

/-- Core of the reverse round trip: when every token of `l2` is in the
forward word list, encoding the character-reversed string through the
reversed-word table equals character-reversing the forward encoding. -/
theorem output_reverse_of_hits (ws : List (List Char)) (l2 : List Char)
    (h : ∀ t ∈ splitSp l2, t ∈ ws) :
    (process_output_side (setup_dd (ws.map List.reverse)) l2.reverse).1 =
      ((process_input_side (setup_dd ws) l2).1).reverse := by
  have hW : ddMapM (setup_dd ws) (splitSp l2) = (splitSp l2, setup_dd ws) :=
    ddMapM_all_hits _ _ (fun t ht => by rw [setup_dd_lookup, if_pos (h t ht)])
  have hsplitrev : splitSp l2.reverse = (splitSp l2).reverse.map List.reverse := by
    conv_lhs => rw [← joinSp_splitSp l2]
    rw [reverse_joinSp]
    refine splitSp_joinSp _ (by simp [splitSp_ne_nil]) ?_
    intro t ht
    rcases List.mem_map.mp ht with ⟨t', ht', rfl⟩
    intro hsp
    exact splitSp_no_space l2 t' (List.mem_reverse.mp ht') (List.mem_reverse.mp hsp)
  have hRW : ddMapM (setup_dd (ws.map List.reverse)) ((splitSp l2).reverse.map List.reverse) =
      ((splitSp l2).reverse.map List.reverse, setup_dd (ws.map List.reverse)) := by
    refine ddMapM_all_hits _ _ (fun t ht => ?_)
    rw [setup_dd_lookup]
    rcases List.mem_map.mp ht with ⟨t', ht', rfl⟩
    have hmem : t'.reverse ∈ ws.map List.reverse :=
      List.mem_map.mpr ⟨t', h t' (List.mem_reverse.mp ht'), rfl⟩
    rw [if_pos hmem]
  simp only [process_output_side, process_input_side, hsplitrev, hW, hRW]
  rw [reverse_joinSp]

set_option maxHeartbeats 2000000 in
/-- Shape of a `proc_line` emission in reverse mode: the pair is the encoded
normalized line and the encoded character-reversal of that line. -/
theorem proc_line_fst_cases_true (u : UnicodeEnv) (mi ma : Nat) (W RW : DefaultDict)
    (line : List Char) :
    (proc_line u mi ma W RW line true).1 = none ∨
    ∃ ln, ln = normalize_string u (pyRstrip u (pyLstrip u (pyStripBoth u line))) ∧
      (proc_line u mi ma W RW line true).1 =
        some ((process_input_side W ln).1, (process_output_side RW ln.reverse).1) := by
  simp only [proc_line]
  split_ifs
  · exact Or.inl rfl
  · exact Or.inr ⟨_, rfl, rfl⟩
  · exact Or.inl rfl
  · exact Or.inl rfl

set_option maxHeartbeats 4000000 in
/-- C3 (amended): with `reverse=true`, any pair emitted by `proc_line` whose
normalized line consists only of in-vocabulary tokens has an output side
equal to the character-reversal of its forward-encoded form.  (For lines with
an out-of-vocabulary token the claim as stated fails: the reversed-word
table's defaultdict fallback is the unreversed token `UNK`, so the output
side contains `UNK` where the reversed forward encoding contains `KNU`; see
the counterexample.) -/
theorem c3_round_trip (u : UnicodeEnv) (mi ma : Nat) (ws : List (List Char))
    (line : List Char) (pr : List Char × List Char)
    (hemit : (proc_line u mi ma (setup_dd ws) (setup_dd (ws.map List.reverse))
      line true).1 = some pr)
    (htok : ∀ t ∈ splitSp (normalize_string u (pyRstrip u (pyLstrip u (pyStripBoth u line)))),
      t ∈ ws) :
    pr.2 = pr.1.reverse := by
  rcases proc_line_fst_cases_true u mi ma (setup_dd ws) (setup_dd (ws.map List.reverse)) line
    with h | ⟨ln, hln, h⟩
  · rw [h] at hemit; cases hemit
  · rw [h] at hemit
    have hpr := Option.some.inj hemit
    rw [← hpr]
    subst hln
    dsimp only
    exact output_reverse_of_hits ws _ htok

/-- C3 counterexample to the claim as stated: with the vocabulary containing
only the reserved tokens, the line `ab cd` is emitted as the pair
`("UNK UNK", "UNK UNK")`, whose output side is NOT the character-reversal
`"KNU KNU"` of its forward-encoded form. -/
theorem c3_counterexample :
    (proc_line simpleU 1 10 (setup_dd ["SOS".data, "EOS".data, "UNK".data])
        (setup_dd (["SOS".data, "EOS".data, "UNK".data].map List.reverse))
        "ab cd".data true).1 = some ("UNK UNK".data, "UNK UNK".data) ∧
    ¬(("UNK UNK".data : List Char) = ("UNK UNK".data : List Char).reverse) := by
  constructor
  · decide
  · decide

/-- Witness for the amended C3 at a concrete input: with `ab` and `cd` in the
vocabulary, the line `ab cd` is emitted as `("ab cd", "dc ba")` and the output
side is the character-reversal of the input side. -/
theorem c3_round_trip_witness :
    (("ab cd".data : List Char), ("dc ba".data : List Char)).2 =
      (("ab cd".data : List Char), ("dc ba".data : List Char)).1.reverse := by
  have h := c3_round_trip simpleU 1 10
    ["SOS".data, "EOS".data, "UNK".data, "ab".data, "cd".data] "ab cd".data
    ("ab cd".data, "dc ba".data) (by decide) (by decide)
  exact h

/-- Inserting into the sorted counter list adds one element. -/
theorem insertMC_length (p : List Char × Nat) (l : List (List Char × Nat)) :
    (insertMC p l).length = l.length + 1 := by
  induction l with
  | nil => rfl
  | cons q qs ih =>
    simp only [insertMC]
    split_ifs
    · simp [ih]
    · simp

/-- `most_common` keeps the counter's size. -/
theorem most_common_length (wc : List (List Char × Nat)) :
    (most_common wc).length = wc.length := by
  induction wc with
  | nil => rfl
  | cons p ps ih =>
    show (insertMC p (most_common ps)).length = ps.length + 1
    rw [insertMC_length, ih]

/-- A non-qualifying line leaves the word counter unchanged. -/
theorem word_counter_step_skip (u : UnicodeEnv) (mi ma : Nat)
    (wc : List (List Char × Nat)) (line : List Char)
    (h : ¬(mi < tokenCountRaw u line ∧ tokenCountRaw u line < ma)) :
    word_counter_step u mi ma wc line = wc := by
  simp only [word_counter_step]
  split_ifs with hc
  · exact absurd hc h
  · rfl

/-- When no line qualifies, the counter stays empty. -/
theorem word_counter_eq_nil (u : UnicodeEnv) (mi ma : Nat) :
    ∀ (lines : List (List Char)),
      (∀ line ∈ lines, ¬(mi < tokenCountRaw u line ∧ tokenCountRaw u line < ma)) →
      word_counter u mi ma lines = [] := by
  have hgen : ∀ (lines : List (List Char)) (wc : List (List Char × Nat)),
      (∀ line ∈ lines, ¬(mi < tokenCountRaw u line ∧ tokenCountRaw u line < ma)) →
      lines.foldl (word_counter_step u mi ma) wc = wc := by
    intro lines
    induction lines with
    | nil => intro wc _; rfl
    | cons line rest ih =>
      intro wc h
      rw [List.foldl_cons,
        word_counter_step_skip u mi ma wc line (h line (List.mem_cons_self _ _))]
      exact ih wc (fun l hl => h l (List.mem_cons.mpr (Or.inr hl)))
  intro lines h
  exact hgen lines [] h

/-- C4: for every corpus and target size `k ≥ 3`, the vocabulary built by
`_setup_vocab` has length `min k (3 + number of distinct qualifying words)`,
its first three entries are the reserved tokens `SOS`, `EOS`, `UNK` in that
order, and when no line qualifies it is exactly the three reserved tokens. -/
theorem c4_vocabulary_shape (u : UnicodeEnv) (mi ma : Nat) (k : Int)
    (lines : List (List Char)) (hk : 3 ≤ k) :
    (the_words u mi ma k lines).length =
      min k.toNat (3 + distinct_qualifying_words u mi ma lines) ∧
    (the_words u mi ma k lines).take 3 = ["SOS".data, "EOS".data, "UNK".data] ∧
    ((∀ line ∈ lines, ¬(mi < tokenCountRaw u line ∧ tokenCountRaw u line < ma)) →
      the_words u mi ma k lines = ["SOS".data, "EOS".data, "UNK".data]) := by
  refine ⟨?_, rfl, ?_⟩
  · unfold the_words distinct_qualifying_words pySliceTo
    rw [if_neg (by omega : ¬(k - 3 < 0))]
    simp only [List.length_append, List.length_map, List.length_take, most_common_length,
      List.length_cons, List.length_nil]
    omega
  · intro h
    unfold the_words
    rw [word_counter_eq_nil u mi ma lines h]
    simp [pySliceTo, most_common]

/-- Witness for C4 at a concrete input: one qualifying line with three
distinct words and `k = 5` gives a vocabulary of length `min 5 6 = 5`. -/
theorem c4_vocabulary_shape_witness :
    (the_words simpleU 1 10 5 ["the cat sat".data]).length =
      min (5 : Int).toNat (3 + distinct_qualifying_words simpleU 1 10 ["the cat sat".data]) :=
  (c4_vocabulary_shape simpleU 1 10 5 ["the cat sat".data] (by decide)).1

/-- Lookup misses every key that is not in the list. -/
theorem pyLookup_eq_none {α β : Type} [DecidableEq α] (l : List (α × β)) (k : α)
    (h : k ∉ l.map Prod.fst) : pyLookup l k = none := by
  induction l with
  | nil => rfl
  | cons p ps ih =>
    simp only [List.map_cons, List.mem_cons] at h
    push_neg at h
    simp only [pyLookup]
    rw [if_neg (fun hh => h.1 hh.symm)]
    exact ih h.2

/-- Folding fresh-keyed assignments appends the pairs in order. -/
theorem foldl_pySet_fresh {α β : Type} [DecidableEq α] :
    ∀ (ps acc : List (α × β)), ((acc ++ ps).map Prod.fst).Nodup →
      ps.foldl (fun d p => pySet d p.1 p.2) acc = acc ++ ps := by
  intro ps
  induction ps with
  | nil => intro acc _; simp
  | cons p ps ih =>
    intro acc hacc
    rw [List.foldl_cons]
    have hacc' := hacc
    rw [List.map_append, List.nodup_append] at hacc'
    have hfresh : p.1 ∉ acc.map Prod.fst :=
      fun hmem => hacc'.2.2 hmem (by simp)
    have hset : pySet acc p.1 p.2 = acc ++ [p] := by
      unfold pySet
      rw [if_neg (by rw [pyLookup_eq_none acc p.1 hfresh]; simp)]
    rw [hset]
    have hacc2 : (((acc ++ [p]) ++ ps).map Prod.fst).Nodup := by
      rw [List.append_assoc]
      simpa using hacc
    have hrec := ih (acc ++ [p]) hacc2
    rw [hrec, List.append_assoc]
    rfl

/-- A dict comprehension over pairs with pairwise-distinct keys is the pair
list itself. -/
theorem pyDict_eq_self {α β : Type} [DecidableEq α] (ps : List (α × β))
    (h : (ps.map Prod.fst).Nodup) : pyDict ps = ps := by
  simpa using foldl_pySet_fresh ps [] (by simpa using h)

/-- Keys of the swapped enumeration are the list elements themselves. -/
theorem enumSwap_keys (l : List String) : ∀ (n : Nat),
    (((List.enumFrom n l).map (fun p => (p.2, p.1))).map Prod.fst) = l := by
  induction l with
  | nil => intro n; rfl
  | cons a l ih => intro n; simp only [List.enumFrom, List.map_cons, ih]

/-- Swapping the swapped enumeration gives back the enumeration. -/
theorem enumSwap_swap (l : List String) : ∀ (n : Nat),
    (((List.enumFrom n l).map (fun p => (p.2, p.1))).map (fun p => (p.2, p.1))) =
      List.enumFrom n l := by
  induction l with
  | nil => intro n; rfl
  | cons a l ih => intro n; simp only [List.enumFrom, List.map_cons, ih]

/-- Every key of an enumeration starting at `n` is at least `n`. -/
theorem mem_enumFrom_keys_ge (l : List String) : ∀ (n m : Nat),
    m ∈ (List.enumFrom n l).map Prod.fst → n ≤ m := by
  induction l with
  | nil => intro n m h; simp [List.enumFrom] at h
  | cons a l ih =>
    intro n m h
    simp only [List.enumFrom, List.map_cons, List.mem_cons] at h
    rcases h with rfl | h
    · exact Nat.le_refl m
    · have := ih (n + 1) m h
      omega

/-- The keys of an enumeration are pairwise distinct. -/
theorem enumFrom_keys_nodup (l : List String) : ∀ (n : Nat),
    ((List.enumFrom n l).map Prod.fst).Nodup := by
  induction l with
  | nil => intro n; simp [List.enumFrom]
  | cons a l ih =>
    intro n
    simp only [List.enumFrom, List.map_cons, List.nodup_cons]
    refine ⟨fun hmem => ?_, ih (n + 1)⟩
    have := mem_enumFrom_keys_ge l (n + 1) n hmem
    omega

/-- First-match lookup in an enumeration is positional indexing. -/
theorem pyLookup_enumFrom (l : List String) : ∀ (n i : Nat),
    pyLookup (List.enumFrom n l) i = if n ≤ i then l[i - n]? else none := by
  induction l with
  | nil =>
    intro n i
    simp only [List.enumFrom, pyLookup, List.getElem?_nil, ite_self]
  | cons a l ih =>
    intro n i
    simp only [List.enumFrom, pyLookup]
    by_cases hni : n = i
    · subst hni
      simp
    · rw [if_neg hni, ih (n + 1) i]
      by_cases hle : n ≤ i
      · have h1 : n + 1 ≤ i := by omega
        rw [if_pos h1, if_pos hle]
        have h2 : i - n = (i - (n + 1)) + 1 := by omega
        rw [h2, List.getElem?_cons_succ]
      · rw [if_neg hle, if_neg (by omega)]

/-- A word that is not in the list misses the swapped-enumeration table. -/
theorem pyLookup_enumSwap_not_mem (l : List String) : ∀ (n : Nat) (w : String),
    w ∉ l → pyLookup ((List.enumFrom n l).map (fun p => (p.2, p.1))) w = none := by
  induction l with
  | nil => intro n w _; rfl
  | cons a l ih =>
    intro n w h
    simp only [List.enumFrom, List.map_cons, pyLookup]
    rw [if_neg (show ¬(((n, a).2, (n, a).1).1 = w) from
      fun hh => h (by rw [← hh]; exact List.mem_cons_self a l))]
    exact ih (n + 1) w (fun hm => h (List.mem_cons.mpr (Or.inr hm)))

/-- In a duplicate-free list, the word at position `j` looks up to key `n+j`
in the swapped enumeration. -/
theorem pyLookup_enumSwap_get (l : List String) (hnd : l.Nodup) : ∀ (n j : Nat) (w : String),
    l[j]? = some w →
    pyLookup ((List.enumFrom n l).map (fun p => (p.2, p.1))) w = some (n + j) := by
  induction l with
  | nil => intro n j w hj; simp at hj
  | cons a l ih =>
    intro n j w hj
    simp only [List.enumFrom, List.map_cons, pyLookup]
    cases j with
    | zero =>
      simp only [List.getElem?_cons_zero, Option.some_inj] at hj
      rw [if_pos hj]
      simp
    | succ j =>
      rw [List.getElem?_cons_succ] at hj
      have hwl : w ∈ l := List.getElem?_mem hj
      have hane : a ≠ w := fun hh => (List.nodup_cons.mp hnd).1 (hh ▸ hwl)
      rw [if_neg hane]
      have := ih (List.nodup_cons.mp hnd).2 (n + 1) j w hj
      rw [this]
      congr 1
      omega

/-- The `word2index` field of a constructed `Lang` is the dict comprehension
over the enumerated vocabulary. -/
theorem Lang_make_word2index (norvig : List String) (vs : Int) (rev : Bool) :
    (Lang.make norvig vs rev).word2index =
      pyDict ((List.enumFrom 0 (Lang.make norvig vs rev).vocabulary).map
        (fun p => (p.2, p.1))) := rfl

/-- The `index2word` field of a constructed `Lang` is the inverted
comprehension. -/
theorem Lang_make_index2word (norvig : List String) (vs : Int) (rev : Bool) :
    (Lang.make norvig vs rev).index2word =
      pyDict ((Lang.make norvig vs rev).word2index.map (fun p => (p.2, p.1))) := rfl

/-- With a duplicate-free vocabulary the two `Lang` tables collapse to the
enumeration and its swap. -/
theorem Lang_tables (norvig : List String) (vs : Int) (rev : Bool)
    (hnd : (Lang.make norvig vs rev).vocabulary.Nodup) :
    (Lang.make norvig vs rev).word2index =
      (List.enumFrom 0 (Lang.make norvig vs rev).vocabulary).map (fun p => (p.2, p.1)) ∧
    (Lang.make norvig vs rev).index2word =
      List.enumFrom 0 (Lang.make norvig vs rev).vocabulary := by
  have h1 : (Lang.make norvig vs rev).word2index =
      (List.enumFrom 0 (Lang.make norvig vs rev).vocabulary).map (fun p => (p.2, p.1)) := by
    rw [Lang_make_word2index]
    exact pyDict_eq_self _ (by rw [enumSwap_keys]; exact hnd)
  refine ⟨h1, ?_⟩
  rw [Lang_make_index2word, h1, enumSwap_swap]
  exact pyDict_eq_self _ (enumFrom_keys_nodup _ 0)

/-- C5 (amended): on a `Lang` with a duplicate-free vocabulary of length at
least 3, `word_to_index` is total and returns the UNKNOWN index for any
lookup-missed word, and on a tensor-scalar index `index_to_word` is total and
returns `vocabulary[UNK_token]` at the UNKNOWN index; but `index_to_word`
evaluates `index.item()` first, which raises an `AttributeError` — uncaught
by `except KeyError` — on every plain-integer index, in particular on the
plain integers `word_to_index` itself returns, so the direct round trip
`index_to_word (word_to_index w)` fails (modelled `none`). -/
theorem c5_encoder_totality (norvig : List String) (vs : Int) (rev : Bool)
    (hnd : (Lang.make norvig vs rev).vocabulary.Nodup)
    (hlen : 3 ≤ (Lang.make norvig vs rev).vocabulary.length) :
    (∀ w, pyLookup (Lang.make norvig vs rev).word2index (pyLower w) = none →
      (Lang.make norvig vs rev).word_to_index w = some UNK_token ∧
      (Lang.make norvig vs rev).index_to_word (PyIndex.tensor UNK_token) =
        (Lang.make norvig vs rev).vocabulary[UNK_token]?) ∧
    (∀ w, ((Lang.make norvig vs rev).word_to_index w).isSome = true) ∧
    (∀ i, ((Lang.make norvig vs rev).index_to_word (PyIndex.tensor i)).isSome = true) ∧
    (∀ n, (Lang.make norvig vs rev).index_to_word (PyIndex.int n) = none) := by
  obtain ⟨hw2i, hi2w⟩ := Lang_tables norvig vs rev hnd
  have hvlen : UNK_token < (Lang.make norvig vs rev).vocabulary.length := by
    unfold UNK_token
    omega
  obtain ⟨uk, huk⟩ : ∃ uk, (Lang.make norvig vs rev).vocabulary[UNK_token]? = some uk :=
    ⟨(Lang.make norvig vs rev).vocabulary[UNK_token], List.getElem?_eq_getElem hvlen⟩
  have hukmem : pyLookup (Lang.make norvig vs rev).word2index uk = some UNK_token := by
    rw [hw2i]
    simpa using
      pyLookup_enumSwap_get (Lang.make norvig vs rev).vocabulary hnd 0 UNK_token uk huk
  have hi2wl : ∀ i, pyLookup (Lang.make norvig vs rev).index2word i =
      (Lang.make norvig vs rev).vocabulary[i]? := by
    intro i
    rw [hi2w, pyLookup_enumFrom]
    simp
  have hfall : ∀ w, pyLookup (Lang.make norvig vs rev).word2index (pyLower w) = none →
      (Lang.make norvig vs rev).word_to_index w = some UNK_token := by
    intro w hw
    have h1 : (Lang.make norvig vs rev).word_to_index w =
        ((Lang.make norvig vs rev).vocabulary[UNK_token]?).bind
          (fun u2 => pyLookup (Lang.make norvig vs rev).word2index u2) := by
      unfold Lang.word_to_index
      rw [hw]
    rw [h1, huk]
    simpa using hukmem
  have hidx : (Lang.make norvig vs rev).index_to_word (PyIndex.tensor UNK_token) =
      (Lang.make norvig vs rev).vocabulary[UNK_token]? := by
    have h1 : pyLookup (Lang.make norvig vs rev).index2word UNK_token = some uk := by
      rw [hi2wl, huk]
    simp only [Lang.index_to_word, pyItem]
    rw [h1, huk]
  refine ⟨fun w hw => ⟨hfall w hw, hidx⟩, fun w => ?_, fun i => ?_, fun n => rfl⟩
  · cases hcase : pyLookup (Lang.make norvig vs rev).word2index (pyLower w) with
    | some j =>
      have h1 : (Lang.make norvig vs rev).word_to_index w = some j := by
        unfold Lang.word_to_index
        rw [hcase]
      rw [h1]
      rfl
    | none =>
      rw [hfall w hcase]
      rfl
  · cases hcase : pyLookup (Lang.make norvig vs rev).index2word i with
    | some w' =>
      have h1 : (Lang.make norvig vs rev).index_to_word (PyIndex.tensor i) = some w' := by
        simp only [Lang.index_to_word, pyItem]
        rw [hcase]
      rw [h1]
      rfl
    | none =>
      have h1 : (Lang.make norvig vs rev).index_to_word (PyIndex.tensor i) =
          ((Lang.make norvig vs rev).vocabulary[UNK_token]?).bind
            (fun u2 => (pyLookup (Lang.make norvig vs rev).word2index u2).bind
              (fun j => pyLookup (Lang.make norvig vs rev).index2word j)) := by
        simp only [Lang.index_to_word, pyItem]
        rw [hcase]
      rw [h1, huk]
      simp only [Option.some_bind]
      rw [hukmem]
      simp only [Option.some_bind]
      rw [hi2wl, huk]
      rfl

/-- C5 counterexample to the claim as stated: `word_to_index` returns a plain
integer, and `index_to_word` calls `.item()` on its argument — raising an
`AttributeError` on a plain integer (modelled `none`) that `except KeyError`
does not catch — so `index_to_word` applied to `word_to_index`'s result fails
instead of returning the UNKNOWN token, and `index_to_word` is not total over
integer indices. -/
theorem c5_counterexample :
    (Lang.make [] (-1) false).word_to_index "zebra" = some UNK_token ∧
    (Lang.make [] (-1) false).index_to_word (PyIndex.int UNK_token) = none := by
  constructor
  · decide
  · rfl

/-- Witness for the amended C5 at a concrete encoder: vocabulary
`SOS EOS UNK the`; the missing word `zebra` maps to index 2, the tensor index
2 maps back to `UNK`, an out-of-range tensor index still resolves, and the
plain-integer index 2 raises (modelled `none`). -/
theorem c5_encoder_totality_witness :
    (Lang.make ["the"] (-1) false).word_to_index "zebra" = some UNK_token ∧
    (Lang.make ["the"] (-1) false).index_to_word (PyIndex.tensor UNK_token) = some "UNK" ∧
    ((Lang.make ["the"] (-1) false).index_to_word (PyIndex.tensor 1000)).isSome = true ∧
    (Lang.make ["the"] (-1) false).index_to_word (PyIndex.int UNK_token) = none := by
  have h := c5_encoder_totality ["the"] (-1) false (by decide) (by decide)
  refine ⟨(h.1 "zebra" (by decide)).1, ?_, h.2.2.1 1000, h.2.2.2 UNK_token⟩
  have h2 := (h.1 "zebra" (by decide)).2
  rw [h2]
  decide

/-- The vocabulary of a forward `Lang` always starts with the three reserved
tokens (whenever it has at least three entries). -/
theorem Lang_make_vocab_prefix (norvig : List String) (vs : Int)
    (hlen : 3 ≤ (Lang.make norvig vs false).vocabulary.length) :
    (Lang.make norvig vs false).vocabulary[0]? = some "SOS" ∧
    (Lang.make norvig vs false).vocabulary[1]? = some "EOS" ∧
    (Lang.make norvig vs false).vocabulary[2]? = some "UNK" := by
  obtain ⟨m, hm⟩ : ∃ m, (Lang.make norvig vs false).vocabulary =
      ("SOS" :: "EOS" :: "UNK" :: norvig).take m := by
    unfold Lang.make pySliceTo
    dsimp only
    rw [if_neg (by decide : ¬(false = true))]
    split_ifs <;> exact ⟨_, rfl⟩
  rw [hm] at hlen ⊢
  rw [List.length_take] at hlen
  have hm3 : 3 ≤ m := by omega
  obtain ⟨m', rfl⟩ : ∃ m', m = m' + 3 := ⟨m - 3, by omega⟩
  have hexp : List.take (m' + 3) ("SOS" :: "EOS" :: "UNK" :: norvig) =
      "SOS" :: "EOS" :: "UNK" :: List.take m' norvig := by
    rw [show m' + 3 = (m' + 2) + 1 from rfl, List.take_succ_cons,
      show m' + 2 = (m' + 1) + 1 from rfl, List.take_succ_cons, List.take_succ_cons]
  rw [hexp]
  refine ⟨?_, ?_, ?_⟩ <;> simp

/-- C10 (amended): lowercasing makes all three uppercase reserved tokens miss
`word2index`, so `word_to_index` returns the UNKNOWN index 2 for each of
them; for `SOS` and `EOS` this differs from their own indices 0 and 1, so
those two are not retrievable, while for `UNK` the fallback happens to
coincide with its own index 2. -/
theorem c10_reserved_tokens (norvig : List String) (vs : Int)
    (hnd : (Lang.make norvig vs false).vocabulary.Nodup)
    (hlen : 3 ≤ (Lang.make norvig vs false).vocabulary.length)
    (hs : "sos" ∉ (Lang.make norvig vs false).vocabulary)
    (he : "eos" ∉ (Lang.make norvig vs false).vocabulary)
    (hu : "unk" ∉ (Lang.make norvig vs false).vocabulary) :
    (Lang.make norvig vs false).word_to_index "SOS" = some UNK_token ∧
    (Lang.make norvig vs false).word_to_index "EOS" = some UNK_token ∧
    (Lang.make norvig vs false).word_to_index "UNK" = some UNK_token ∧
    pyLookup (Lang.make norvig vs false).word2index "SOS" = some SOS_token ∧
    pyLookup (Lang.make norvig vs false).word2index "EOS" = some EOS_token := by
  obtain ⟨hw2i, hi2w⟩ := Lang_tables norvig vs false hnd
  obtain ⟨h0, h1, h2⟩ := Lang_make_vocab_prefix norvig vs hlen
  have h2u : (Lang.make norvig vs false).vocabulary[UNK_token]? = some "UNK" := h2
  have hukmem : pyLookup (Lang.make norvig vs false).word2index "UNK" = some UNK_token := by
    rw [hw2i]
    simpa using pyLookup_enumSwap_get (Lang.make norvig vs false).vocabulary hnd 0 2 "UNK" h2
  have hmiss : ∀ (w lw : String), pyLower w = lw →
      lw ∉ (Lang.make norvig vs false).vocabulary →
      (Lang.make norvig vs false).word_to_index w = some UNK_token := by
    intro w lw hlw hnm
    have hw : pyLookup (Lang.make norvig vs false).word2index (pyLower w) = none := by
      rw [hw2i, hlw]
      exact pyLookup_enumSwap_not_mem _ 0 lw hnm
    have hstep : (Lang.make norvig vs false).word_to_index w =
        ((Lang.make norvig vs false).vocabulary[UNK_token]?).bind
          (fun u2 => pyLookup (Lang.make norvig vs false).word2index u2) := by
      unfold Lang.word_to_index
      rw [hw]
    rw [hstep, h2u]
    simpa using hukmem
  refine ⟨hmiss "SOS" "sos" (by decide) hs, hmiss "EOS" "eos" (by decide) he,
    hmiss "UNK" "unk" (by decide) hu, ?_, ?_⟩
  · rw [hw2i]
    simpa using pyLookup_enumSwap_get (Lang.make norvig vs false).vocabulary hnd 0 0 "SOS" h0
  · rw [hw2i]
    simpa using pyLookup_enumSwap_get (Lang.make norvig vs false).vocabulary hnd 0 1 "EOS" h1

/-- C10 counterexample to the claim as stated: for the reserved token `UNK`
itself, `word_to_index` returns 2 — which IS that token's own index — so
`UNK` is retrievable and the blanket "rather than t's own index" fails. -/
theorem c10_counterexample :
    (Lang.make [] (-1) false).word_to_index "UNK" = some UNK_token ∧
    pyLookup (Lang.make [] (-1) false).word2index "UNK" = some UNK_token := by
  constructor
  · decide
  · decide

/-- Witness for the amended C10 at a concrete encoder: `SOS` resolves to the
UNKNOWN index 2 although its own index is 0. -/
theorem c10_reserved_tokens_witness :
    (Lang.make ["the"] (-1) false).word_to_index "SOS" = some UNK_token ∧
    pyLookup (Lang.make ["the"] (-1) false).word2index "SOS" = some SOS_token := by
  have h := c10_reserved_tokens ["the"] (-1) (by decide) (by decide) (by decide) (by decide)
    (by decide)
  exact ⟨h.1, h.2.2.2.1⟩

/-- C6: `process_sentence` substitutes the integer index
`word2index[vocabulary[UNK_token]]` (not the token string) for every
out-of-vocabulary word, so `" ".join` raises a TypeError — modelled as
`none` — whenever the sentence has an out-of-vocabulary token, while a fully
in-vocabulary sentence passes through. -/
theorem c6_process_sentence_type_error :
    (Lang.make [] (-1) false).process_sentence simpleU "hello" false = none ∧
    (Lang.make [] (-1) false).process_sentence simpleU "UNK UNK" false = some "UNK UNK" := by
  constructor
  · decide
  · decide

/-- Membership through `pyLstrip`. -/
theorem mem_of_mem_pyLstrip (u : UnicodeEnv) {c : Char} {l : List Char}
    (h : c ∈ pyLstrip u l) : c ∈ l :=
  (List.dropWhile_sublist u.isSpace).mem h

/-- Membership through `pyRstrip`. -/
theorem mem_of_mem_pyRstrip (u : UnicodeEnv) {c : Char} :
    ∀ {l : List Char}, c ∈ pyRstrip u l → c ∈ l := by
  intro l
  induction l with
  | nil => intro h; exact h
  | cons a cs ih =>
    intro h
    simp only [pyRstrip] at h
    cases hr : pyRstrip u cs with
    | nil =>
      rw [hr] at h
      split_ifs at h
      · cases h
      · rcases List.mem_singleton.mp h with rfl
        exact List.mem_cons_self _ _
    | cons r rs =>
      rw [hr] at h
      rcases List.mem_cons.mp h with rfl | h2
      · exact List.mem_cons_self _ _
      · exact List.mem_cons.mpr (Or.inr (ih (hr ▸ h2)))

/-- Every character output by `collapseWS` is a space or a non-whitespace
character of the input. -/
theorem mem_collapseWS_cases (u : UnicodeEnv) {c : Char} :
    ∀ (b : Bool) (l : List Char), c ∈ collapseWS u b l →
      c = ' ' ∨ (c ∈ l ∧ u.isSpace c = false) := by
  intro b l
  induction l generalizing b with
  | nil => intro h; cases h
  | cons a cs ih =>
    intro h
    simp only [collapseWS] at h
    split_ifs at h with h1 h2
    · rcases ih true h with rfl | ⟨hm, hs⟩
      · exact Or.inl rfl
      · exact Or.inr ⟨List.mem_cons.mpr (Or.inr hm), hs⟩
    · rcases List.mem_cons.mp h with rfl | h3
      · exact Or.inl rfl
      · rcases ih true h3 with rfl | ⟨hm, hs⟩
        · exact Or.inl rfl
        · exact Or.inr ⟨List.mem_cons.mpr (Or.inr hm), hs⟩
    · rcases List.mem_cons.mp h with rfl | h3
      · exact Or.inr ⟨List.mem_cons_self _ _, by simpa using h1⟩
      · rcases ih false h3 with rfl | ⟨hm, hs⟩
        · exact Or.inl rfl
        · exact Or.inr ⟨List.mem_cons.mpr (Or.inr hm), hs⟩

/-- Every character of a normalized string is an `OutChar`. -/
theorem normalize_outChar (u : UnicodeEnv) (hg : UGood u) (s : List Char) :
    ∀ c ∈ normalize_string u s, OutChar u c := by
  intro c hc
  simp only [normalize_string] at hc
  have hc1 := mem_of_mem_pyLstrip u (mem_of_mem_pyRstrip u hc)
  have hc2 := mem_of_mem_pyLstrip u (mem_of_mem_pyRstrip u hc1)
  rcases mem_collapseWS_cases u false _ hc2 with rfl | ⟨hm, hns⟩
  · exact Or.inl rfl
  rcases List.mem_map.mp hm with ⟨x, hx3, hxc⟩
  by_cases hw : u.isWordChar x = true
  · rw [if_pos hw] at hxc
    subst hxc
    have hx2 : x ∈ ((unicode_to_ascii u (pyStripBoth u (s.map u.toLower))).filter
        (fun c => c != '\x27')) := by
      rcases List.mem_flatMap.mp hx3 with ⟨y, hy2, hyx⟩
      split_ifs at hyx
      · rcases List.mem_cons.mp hyx with rfl | hyx2
        · exfalso
          have hsp := hg.word_not_space ' ' hw
          rw [hg.space_isSpace] at hsp
          cases hsp
        · rcases List.mem_singleton.mp hyx2 with rfl
          exact hy2
      · rcases List.mem_singleton.mp hyx with rfl
        exact hy2
    have hx1 := (List.mem_filter.mp hx2).1
    have hx0 := List.mem_filter.mp hx1
    rcases List.mem_flatMap.mp hx0.1 with ⟨z, hz, hxz⟩
    have hzl := mem_of_mem_pyLstrip u (mem_of_mem_pyRstrip u hz)
    rcases List.mem_map.mp hzl with ⟨d, _, hdz⟩
    have hfix := hg.lower_nfd_fix d x (hdz ▸ hxz)
    exact Or.inr ⟨hw, hfix.1, hfix.2, by simpa using hx0.2⟩
  · rw [if_neg hw] at hxc
    exact Or.inl hxc.symm

/-- Lowering is the identity on normalized output characters. -/
theorem map_toLower_outChar (u : UnicodeEnv) (hg : UGood u) (l : List Char)
    (h : ∀ c ∈ l, OutChar u c) : l.map u.toLower = l := by
  induction l with
  | nil => rfl
  | cons c cs ih =>
    have hc : u.toLower c = c := by
      rcases h c (List.mem_cons_self _ _) with rfl | ⟨_, h2, _, _⟩
      · exact hg.space_lower
      · exact h2
    rw [List.map_cons, hc, ih (fun x hx => h x (List.mem_cons.mpr (Or.inr hx)))]

/-- Decomposition is trivial on normalized output characters. -/
theorem flatMap_nfd_outChar (u : UnicodeEnv) (hg : UGood u) (l : List Char)
    (h : ∀ c ∈ l, OutChar u c) : l.flatMap u.nfd = l := by
  induction l with
  | nil => rfl
  | cons c cs ih =>
    have hc : u.nfd c = [c] := by
      rcases h c (List.mem_cons_self _ _) with rfl | ⟨_, _, h3, _⟩
      · exact hg.space_nfd
      · exact h3
    rw [List.flatMap_cons, hc, ih (fun x hx => h x (List.mem_cons.mpr (Or.inr hx)))]
    rfl

/-- The Mn filter keeps every normalized output character. -/
theorem filter_mn_outChar (u : UnicodeEnv) (hg : UGood u) (l : List Char)
    (h : ∀ c ∈ l, OutChar u c) : l.filter (fun c => !(u.isMn c)) = l := by
  refine List.filter_eq_self.mpr (fun c hc => ?_)
  rcases h c hc with rfl | ⟨_, _, _, h4⟩
  · simp [hg.space_isMn]
  · simp [h4]

/-- The apostrophe filter keeps every normalized output character. -/
theorem filter_apos_outChar (u : UnicodeEnv) (hg : UGood u) (l : List Char)
    (h : ∀ c ∈ l, OutChar u c) : l.filter (fun c => c != '\x27') = l := by
  refine List.filter_eq_self.mpr (fun c hc => ?_)
  rcases h c hc with rfl | ⟨hw, _, _, _⟩
  · decide
  · simpa using (hg.word_not_punct c hw).1

/-- The punctuation pass keeps every normalized output character. -/
theorem flatMap_punct_outChar (u : UnicodeEnv) (hg : UGood u) (l : List Char)
    (h : ∀ c ∈ l, OutChar u c) :
    l.flatMap (fun c => if c = '.' ∨ c = '!' ∨ c = '?' then [' ', c] else [c]) = l := by
  induction l with
  | nil => rfl
  | cons c cs ih =>
    have hc : ¬(c = '.' ∨ c = '!' ∨ c = '?') := by
      rcases h c (List.mem_cons_self _ _) with rfl | ⟨hw, _, _, _⟩
      · decide
      · rcases hg.word_not_punct c hw with ⟨_, hp1, hp2, hp3⟩
        simp [hp1, hp2, hp3]
    rw [List.flatMap_cons, if_neg hc,
      ih (fun x hx => h x (List.mem_cons.mpr (Or.inr hx)))]
    rfl

/-- The word-character pass keeps every normalized output character. -/
theorem map_word_outChar (u : UnicodeEnv) (hg : UGood u) (l : List Char)
    (h : ∀ c ∈ l, OutChar u c) :
    l.map (fun c => if u.isWordChar c then c else ' ') = l := by
  induction l with
  | nil => rfl
  | cons c cs ih =>
    have hc : (if u.isWordChar c then c else ' ') = c := by
      rcases h c (List.mem_cons_self _ _) with rfl | ⟨hw, _, _, _⟩
      · split_ifs <;> rfl
      · rw [if_pos hw]
    rw [List.map_cons, hc, ih (fun x hx => h x (List.mem_cons.mpr (Or.inr hx)))]

/-- Every whitespace character of a normalized string is the plain space. -/
theorem normalize_space_eq (u : UnicodeEnv) (s : List Char) :
    ∀ c ∈ normalize_string u s, u.isSpace c = true → c = ' ' := by
  intro c hc hs
  simp only [normalize_string] at hc
  have hc2 := mem_of_mem_pyLstrip u (mem_of_mem_pyRstrip u
    (mem_of_mem_pyLstrip u (mem_of_mem_pyRstrip u hc)))
  rcases mem_collapseWS_cases u false _ hc2 with rfl | ⟨_, hns⟩
  · rfl
  · rw [hs] at hns
    cases hns

/-- The tail of an adjacency-free list is adjacency-free. -/
theorem noAdjSpace_tail (u : UnicodeEnv) {a : Char} {l : List Char}
    (h : noAdjSpace u (a :: l)) : noAdjSpace u l := by
  cases l with
  | nil => trivial
  | cons b bs => exact h.2

/-- Extending an adjacency-free list with a compatible head. -/
theorem noAdjSpace_cons_of (u : UnicodeEnv) (a : Char) (l : List Char)
    (h1 : noAdjSpace u l)
    (h2 : ∀ b bs, l = b :: bs → ¬(u.isSpace a = true ∧ u.isSpace b = true)) :
    noAdjSpace u (a :: l) := by
  cases l with
  | nil => trivial
  | cons b bs => exact ⟨h2 b bs rfl, h1⟩

/-- A collapse in inside-a-run state starts with a non-space character. -/
theorem collapseWS_true_head (u : UnicodeEnv) : ∀ (l : List Char),
    collapseWS u true l = [] ∨
      ∃ c cs, collapseWS u true l = c :: cs ∧ u.isSpace c = false := by
  intro l
  induction l with
  | nil => exact Or.inl rfl
  | cons c cs ih =>
    simp only [collapseWS]
    split_ifs with h1
    · exact ih
    · exact Or.inr ⟨c, collapseWS u false cs, rfl, by simpa using h1⟩

/-- Collapsed output never has two adjacent whitespace characters. -/
theorem collapseWS_noAdj (u : UnicodeEnv) : ∀ (l : List Char) (b : Bool),
    noAdjSpace u (collapseWS u b l) := by
  intro l
  induction l with
  | nil => intro b; trivial
  | cons c cs ih =>
    intro b
    simp only [collapseWS]
    split_ifs with h1 h2
    · exact ih true
    · refine noAdjSpace_cons_of u ' ' _ (ih true) ?_
      intro b' bs' hb'
      rcases collapseWS_true_head u cs with he | ⟨d, ds, hd, hds⟩
      · rw [he] at hb'; cases hb'
      · rw [hd] at hb'
        injection hb' with h3 h4
        subst h3
        intro hx
        rw [hds] at hx
        cases hx.2
    · refine noAdjSpace_cons_of u c _ (ih false) ?_
      intro b' bs' hb' hx
      exact h1 hx.1

/-- Left-stripping preserves adjacency-freedom. -/
theorem noAdjSpace_pyLstrip (u : UnicodeEnv) : ∀ (l : List Char),
    noAdjSpace u l → noAdjSpace u (pyLstrip u l) := by
  intro l
  induction l with
  | nil => intro h; trivial
  | cons a as ih =>
    intro h
    simp only [pyLstrip, List.dropWhile_cons]
    split_ifs
    · exact ih (noAdjSpace_tail u h)
    · exact h

/-- Right-stripping a cons either empties it or keeps the head. -/
theorem pyRstrip_head_cases (u : UnicodeEnv) (c : Char) (cs : List Char) :
    pyRstrip u (c :: cs) = [] ∨ ∃ r, pyRstrip u (c :: cs) = c :: r := by
  simp only [pyRstrip]
  cases pyRstrip u cs with
  | nil =>
    split_ifs
    · exact Or.inl rfl
    · exact Or.inr ⟨[], rfl⟩
  | cons r rs => exact Or.inr ⟨r :: rs, rfl⟩

/-- Right-stripping preserves adjacency-freedom. -/
theorem noAdjSpace_pyRstrip (u : UnicodeEnv) : ∀ (l : List Char),
    noAdjSpace u l → noAdjSpace u (pyRstrip u l) := by
  intro l
  induction l with
  | nil => intro _; trivial
  | cons c cs ih =>
    intro h
    simp only [pyRstrip]
    cases hr : pyRstrip u cs with
    | nil =>
      split_ifs
      · trivial
      · trivial
    | cons r rs =>
      have htail : noAdjSpace u (r :: rs) := hr ▸ ih (noAdjSpace_tail u h)
      refine noAdjSpace_cons_of u c _ htail ?_
      intro b' bs' hb'
      injection hb' with h3 h4
      subst h3
      cases cs with
      | nil => cases hr
      | cons d ds =>
        rcases pyRstrip_head_cases u d ds with he | ⟨r', hr'⟩
        · rw [he] at hr; cases hr
        · rw [hr'] at hr
          injection hr with h5 h6
          subst h5
          intro hx
          exact h.1 hx

/-- Left-stripping yields an empty list or a non-space head. -/
theorem pyLstrip_head_cases (u : UnicodeEnv) : ∀ (l : List Char),
    pyLstrip u l = [] ∨ ∃ c cs, pyLstrip u l = c :: cs ∧ u.isSpace c = false := by
  intro l
  induction l with
  | nil => exact Or.inl rfl
  | cons a as ih =>
    simp only [pyLstrip, List.dropWhile_cons]
    split_ifs with h
    · exact ih
    · exact Or.inr ⟨a, as, rfl, by simpa using h⟩

/-- Left-stripping is the identity when the head is not whitespace. -/
theorem pyLstrip_eq_self_of_head (u : UnicodeEnv) (l : List Char)
    (h : l = [] ∨ ∃ c cs, l = c :: cs ∧ u.isSpace c = false) : pyLstrip u l = l := by
  rcases h with rfl | ⟨c, cs, rfl, hc⟩
  · rfl
  · simp [pyLstrip, List.dropWhile_cons, hc]

/-- Right-stripping keeps an empty-or-non-space head. -/
theorem pyRstrip_preserves_head (u : UnicodeEnv) (l : List Char)
    (h : l = [] ∨ ∃ c cs, l = c :: cs ∧ u.isSpace c = false) :
    pyRstrip u l = [] ∨ ∃ c cs, pyRstrip u l = c :: cs ∧ u.isSpace c = false := by
  rcases h with rfl | ⟨c, cs, rfl, hc⟩
  · exact Or.inl rfl
  · rcases pyRstrip_head_cases u c cs with he | ⟨r, hr⟩
    · exact Or.inl he
    · exact Or.inr ⟨c, r, hr, hc⟩

/-- Consing onto a right-strip fixed point (of a non-empty list) is fixed. -/
theorem pyRstrip_cons_fix (u : UnicodeEnv) (c : Char) (l : List Char)
    (h : pyRstrip u l = l) (hne : l ≠ []) : pyRstrip u (c :: l) = c :: l := by
  cases hl : l with
  | nil => exact absurd hl hne
  | cons d ds =>
    subst hl
    have hu : pyRstrip u (c :: d :: ds) =
        (match pyRstrip u (d :: ds) with
          | [] => if u.isSpace c = true then [] else [c]
          | r => c :: r) := by
      simp only [pyRstrip]
    rw [hu, h]

/-- Right-stripping is idempotent. -/
theorem pyRstrip_idem (u : UnicodeEnv) : ∀ (l : List Char),
    pyRstrip u (pyRstrip u l) = pyRstrip u l := by
  intro l
  induction l with
  | nil => rfl
  | cons c cs ih =>
    have hstep : ∀ (X : List Char), pyRstrip u cs = X →
        pyRstrip u (c :: cs) =
          (match X with
            | [] => if u.isSpace c then [] else [c]
            | r => c :: r) := by
      intro X hX
      simp only [pyRstrip, hX]
    cases hr : pyRstrip u cs with
    | nil =>
      rw [hstep [] hr]
      split_ifs with h
      · rfl
      · simp [pyRstrip, h]
    | cons r rs =>
      rw [hstep (r :: rs) hr]
      exact pyRstrip_cons_fix u c (r :: rs) (hr ▸ ih) (by simp)

/-- In-run and fresh collapse agree when the head is not whitespace. -/
theorem collapseWS_true_eq_false_of_head (u : UnicodeEnv) (l : List Char)
    (h : l = [] ∨ ∃ d ds, l = d :: ds ∧ u.isSpace d = false) :
    collapseWS u true l = collapseWS u false l := by
  rcases h with rfl | ⟨d, ds, rfl, hd⟩
  · rfl
  · simp only [collapseWS, hd]
    rfl

/-- Collapsing is the identity on adjacency-free strings whose whitespace is
all plain spaces. -/
theorem collapseWS_eq_self (u : UnicodeEnv) : ∀ (l : List Char),
    (∀ c ∈ l, u.isSpace c = true → c = ' ') → noAdjSpace u l →
    collapseWS u false l = l := by
  intro l
  induction l with
  | nil => intro _ _; rfl
  | cons c cs ih =>
    intro hsp hadj
    by_cases h1 : u.isSpace c = true
    · have hc : c = ' ' := hsp c (List.mem_cons_self _ _) h1
      have hhead : cs = [] ∨ ∃ d ds, cs = d :: ds ∧ u.isSpace d = false := by
        cases cs with
        | nil => exact Or.inl rfl
        | cons d ds =>
          refine Or.inr ⟨d, ds, rfl, ?_⟩
          by_cases h2 : u.isSpace d = true
          · exact absurd ⟨h1, h2⟩ hadj.1
          · simpa using h2
      have hc1 : collapseWS u false (c :: cs) = ' ' :: collapseWS u true cs := by
        simp only [collapseWS, if_pos h1]
        rfl
      rw [hc1, collapseWS_true_eq_false_of_head u cs hhead,
        ih (fun x hx hsx => hsp x (List.mem_cons.mpr (Or.inr hx)) hsx)
          (noAdjSpace_tail u hadj), hc]
    · have hc1 : collapseWS u false (c :: cs) = c :: collapseWS u false cs := by
        simp only [collapseWS, if_neg h1]
      rw [hc1, ih (fun x hx hsx => hsp x (List.mem_cons.mpr (Or.inr hx)) hsx)
        (noAdjSpace_tail u hadj)]

/-- C8: `normalize_string` is idempotent (under the consistency conditions on
the character primitives) and is a pure total function. -/
theorem c8_normalize_idempotent (u : UnicodeEnv) (hg : UGood u) (s : List Char) :
    normalize_string u (normalize_string u s) = normalize_string u s := by
  have hchars := normalize_outChar u hg s
  have hsp := normalize_space_eq u s
  have hadj : noAdjSpace u (normalize_string u s) := by
    simp only [normalize_string]
    exact noAdjSpace_pyRstrip u _ (noAdjSpace_pyLstrip u _
      (noAdjSpace_pyRstrip u _ (noAdjSpace_pyLstrip u _ (collapseWS_noAdj u _ false))))
  have hhead : normalize_string u s = [] ∨
      ∃ c cs, normalize_string u s = c :: cs ∧ u.isSpace c = false := by
    simp only [normalize_string]
    exact pyRstrip_preserves_head u _ (pyLstrip_head_cases u _)
  have hL : pyLstrip u (normalize_string u s) = normalize_string u s :=
    pyLstrip_eq_self_of_head u _ hhead
  have hR : pyRstrip u (normalize_string u s) = normalize_string u s := by
    conv_lhs => rw [normalize_string]
    conv_rhs => rw [normalize_string]
    exact pyRstrip_idem u _
  have hSB : pyStripBoth u (normalize_string u s) = normalize_string u s := by
    unfold pyStripBoth
    rw [hL, hR]
  have h1 : (normalize_string u s).map u.toLower = normalize_string u s :=
    map_toLower_outChar u hg _ hchars
  have h3 : (normalize_string u s).flatMap u.nfd = normalize_string u s :=
    flatMap_nfd_outChar u hg _ hchars
  have h4 : (normalize_string u s).filter (fun c => !(u.isMn c)) = normalize_string u s :=
    filter_mn_outChar u hg _ hchars
  have hua : unicode_to_ascii u (normalize_string u s) = normalize_string u s := by
    unfold unicode_to_ascii
    rw [h3, h4]
  have h5 : (normalize_string u s).filter (fun c => c != '\x27') = normalize_string u s :=
    filter_apos_outChar u hg _ hchars
  have h6 : (normalize_string u s).flatMap
      (fun c => if c = '.' ∨ c = '!' ∨ c = '?' then [' ', c] else [c]) =
      normalize_string u s :=
    flatMap_punct_outChar u hg _ hchars
  have h7 : (normalize_string u s).map (fun c => if u.isWordChar c then c else ' ') =
      normalize_string u s :=
    map_word_outChar u hg _ hchars
  have h8 : collapseWS u false (normalize_string u s) = normalize_string u s :=
    collapseWS_eq_self u _ hsp hadj
  have hunf : normalize_string u (normalize_string u s) =
      pyRstrip u (pyLstrip u (pyStripBoth u (collapseWS u false
        ((((unicode_to_ascii u (pyStripBoth u
              ((normalize_string u s).map u.toLower))).filter
            (fun c => c != '\x27')).flatMap
          (fun c => if c = '.' ∨ c = '!' ∨ c = '?' then [' ', c] else [c])).map
          (fun c => if u.isWordChar c then c else ' '))))) := rfl
  rw [hunf, h1, hSB, hua, h5, h6, h7, h8, hSB, hL, hR]

/-- The concrete environment satisfies the consistency conditions. -/
theorem uGood_simpleU : UGood simpleU where
  space_isSpace := rfl
  space_lower := rfl
  space_nfd := rfl
  space_isMn := rfl
  word_not_space := by
    intro c h
    simp only [simpleU] at h ⊢
    cases hc1 : (c == ' ') <;> cases hc2 : (c == '\t') <;> cases hc3 : (c == '\n') <;>
      simp_all
  word_not_punct := by
    intro c h
    simp only [simpleU] at h
    refine ⟨?_, ?_, ?_, ?_⟩ <;> (intro he; subst he; exact absurd h (by decide))
  lower_nfd_fix := by
    intro d c hc
    exact ⟨rfl, rfl⟩

/-- Concrete check of C8: the consistency conditions hold for the concrete
environment, and normalization of a messy concrete string is idempotent. -/
theorem c8_normalize_idempotent_witness :
    UGood simpleU ∧
      normalize_string simpleU (normalize_string simpleU "  Hello,　the   World!! ".data) =
        normalize_string simpleU "  Hello,　the   World!! ".data :=
  ⟨uGood_simpleU, c8_normalize_idempotent simpleU uGood_simpleU "  Hello,　the   World!! ".data⟩

end PTVae
